import Mathlib

/-!
Verification development for the `miscellaneous_libs` audio/DSP crates.

The spectral-analysis subsystem is embedded shallowly:

* `math_utils/src/discrete_interval.rs` and the frequency-bin mapping of
  `audio.rs/src/analysis/discrete_frequency.rs` operate on `f32` using only
  field operations and truncation; they are embedded over `ℚ`
  (exact arithmetic idealization of `f32`).
* the STFT and Goertzel analyzers
  (`audio.rs/src/analysis/dft/stft_analyzer.rs`,
  `audio.rs/src/analysis/dft/goertzel_analyzer.rs`) use trigonometric
  functions and are embedded over `ℝ`/`ℂ`.
* Rust panics (assertion failures, `usize` underflow with overflow checks
  enabled) are embedded as `Option`, with `none` marking the panic.
-/

namespace MiscLibs

/-- Embedding of `TruncToUsize::trunc_usize` for floats (`math_utils/src/ext.rs`):
the Rust cast `self as usize` truncates toward zero and saturates at `0`
for negative inputs, which is exactly `Nat.floor` on `ℚ`. -/
def trunc_usize (x : ℚ) : ℕ := ⌊x⌋₊

/-- Embedding of `DiscreteInterval<f32>` (`math_utils/src/discrete_interval.rs`). -/
structure DiscreteInterval where
  interval : ℚ × ℚ
  n_of_bins : ℕ

/-- `DiscreteInterval::bin_width`: `(interval.1 - interval.0).div_usize(n_of_bins)`. -/
def DiscreteInterval.bin_width (I : DiscreteInterval) : ℚ :=
  (I.interval.2 - I.interval.1) / (I.n_of_bins : ℚ)

/-- `DiscreteInterval::value_to_bin`:
`((value - interval.0) / bin_width()).trunc_usize().min(n_of_bins - 1)`
(release semantics: the `debug_assert!` range check is compiled out). -/
def DiscreteInterval.value_to_bin (I : DiscreteInterval) (value : ℚ) : ℕ :=
  min (trunc_usize ((value - I.interval.1) / I.bin_width)) (I.n_of_bins - 1)

/-- `DiscreteInterval::bin_to_range_start`: `interval.0 + bin_width() * bin`. -/
def DiscreteInterval.bin_to_range_start (I : DiscreteInterval) (bin : ℕ) : ℚ :=
  I.interval.1 + I.bin_width * (bin : ℚ)

/-- `DiscreteInterval::bin_to_range_end`: `interval.0 + bin_width() * (bin + 1)`. -/
def DiscreteInterval.bin_to_range_end (I : DiscreteInterval) (bin : ℕ) : ℚ :=
  I.interval.1 + I.bin_width * ((bin : ℚ) + 1)

/-- `DiscreteInterval::bin_range`: `(start, start + gap)`. -/
def DiscreteInterval.bin_range (I : DiscreteInterval) (bin : ℕ) : ℚ × ℚ :=
  (I.bin_to_range_start bin, I.bin_to_range_start bin + I.bin_width)

/-- `DiscreteInterval::bin_midpoint`: `start + gap.div_usize(2)`. -/
def DiscreteInterval.bin_midpoint (I : DiscreteInterval) (bin : ℕ) : ℚ :=
  I.bin_to_range_start bin + I.bin_width / 2

/-- `n_of_frequency_bins` (`audio.rs/src/analysis/discrete_frequency.rs`):
`samples_per_window / 2 + 1` with integer division. -/
def n_of_frequency_bins (samples_per_window : ℕ) : ℕ :=
  samples_per_window / 2 + 1

/-- `dft_frequency_interval`: the interval
`(-(sr/2/spw), sr/2 + sr/2/spw)` split into `n_of_frequency_bins spw` bins. -/
def dft_frequency_interval (sample_rate samples_per_window : ℕ) : DiscreteInterval :=
  { interval :=
      (-((sample_rate : ℚ) / 2 / (samples_per_window : ℚ)),
       (sample_rate : ℚ) / 2 + (sample_rate : ℚ) / 2 / (samples_per_window : ℚ)),
    n_of_bins := n_of_frequency_bins samples_per_window }

/-- `frequency_to_bin_idx`. -/
def frequency_to_bin_idx (sample_rate samples_per_window : ℕ) (frequency : ℚ) : ℕ :=
  (dft_frequency_interval sample_rate samples_per_window).value_to_bin frequency

/-- `frequency_gap`. -/
def frequency_gap (sample_rate samples_per_window : ℕ) : ℚ :=
  (dft_frequency_interval sample_rate samples_per_window).bin_width

/-- `bin_idx_to_frequency`. -/
def bin_idx_to_frequency (sample_rate samples_per_window bin_idx : ℕ) : ℚ :=
  (dft_frequency_interval sample_rate samples_per_window).bin_midpoint bin_idx

/-- `frequency_interval`. -/
def frequency_interval (sample_rate samples_per_window bin_idx : ℕ) : ℚ × ℚ :=
  (dft_frequency_interval sample_rate samples_per_window).bin_range bin_idx

/-- Embedding of `DiscreteFrequency` (runtime-field bin identity). -/
structure DiscreteFrequency where
  sample_rate : ℕ
  samples_per_window : ℕ
  bin_idx : ℕ
deriving DecidableEq

/-- `DiscreteFrequency::frequency`. -/
def DiscreteFrequency.frequency (b : DiscreteFrequency) : ℚ :=
  bin_idx_to_frequency b.sample_rate b.samples_per_window b.bin_idx

/-- `DiscreteFrequency::from_frequency`. -/
def DiscreteFrequency.from_frequency (sample_rate samples_per_window : ℕ) (frequency : ℚ) :
    DiscreteFrequency :=
  ⟨sample_rate, samples_per_window,
   frequency_to_bin_idx sample_rate samples_per_window frequency⟩

/-- `impl Add<usize> for DiscreteFrequency`: shifts the bin index up with no
range validation whatsoever. -/
def DiscreteFrequency.add (b : DiscreteFrequency) (rhs : ℕ) : DiscreteFrequency :=
  ⟨b.sample_rate, b.samples_per_window, b.bin_idx + rhs⟩

/-- `impl Sub<usize> for DiscreteFrequency`: `self.bin_idx - rhs` on `usize`.
With overflow checks (Rust debug semantics) the subtraction panics on
underflow, embedded as `none`. -/
def DiscreteFrequency.sub (b : DiscreteFrequency) (rhs : ℕ) : Option DiscreteFrequency :=
  if rhs ≤ b.bin_idx then some ⟨b.sample_rate, b.samples_per_window, b.bin_idx - rhs⟩
  else none

/-- `f32::EPSILON = 2⁻²³`, as an exact rational. -/
def f32_epsilon : ℚ := 1 / 2 ^ 23

/-! ### The STFT and Goertzel analyzers (`audio.rs/src/analysis/dft/`)

`f32` arithmetic is idealized over `ℝ`/`ℂ`. Rust's in-place scratch buffers
become explicit state passing: `analyze` returns the updated analyzer together
with the produced transform, and the length-mismatch `assert_eq!` panic is
embedded as `none`. -/

noncomputable section

/-- `std::f32::consts::TAU`. -/
def TAU : ℝ := 2 * Real.pi

/-- Embedding of `DiscreteHarmonic`: a complex phasor tagged with the identity
of the frequency bin it was computed for. -/
structure DiscreteHarmonic where
  phasor : ℂ
  bin_idx : ℕ

/-- `DiscreteHarmonic::amplitude`: `self.phasor.norm()`. -/
def DiscreteHarmonic.amplitude (h : DiscreteHarmonic) : ℝ := Complex.abs h.phasor

/-- `DiscreteHarmonic::phase`: `self.phasor.arg()`. -/
def DiscreteHarmonic.phase (h : DiscreteHarmonic) : ℝ := Complex.arg h.phasor

/-- One iteration of the Goertzel IIR recurrence
(`let z0 = sample + coeff.0 * z1 - z2; z2 = z1; z1 = z0` on the pair `(z1, z2)`). -/
def goertzel_step (coeff1 : ℝ) (z : ℝ × ℝ) (sample : ℝ) : ℝ × ℝ :=
  (sample + coeff1 * z.1 - z.2, z.1)

/-- The per-bin constants precomputed by `GoertzelAnalyzer::new`:
`ω = TAU * bin_idx / samples_per_window`, stored as `(2·cos ω, (cos ω, sin ω))`. -/
def goertzel_coefficients (samples_per_window bin_idx : ℕ) : ℝ × ℂ :=
  (2 * Real.cos (TAU * (bin_idx : ℝ) / (samples_per_window : ℝ)),
   ⟨Real.cos (TAU * (bin_idx : ℝ) / (samples_per_window : ℝ)),
    Real.sin (TAU * (bin_idx : ℝ) / (samples_per_window : ℝ))⟩)

/-- The write pattern of the Rust `zip`-based scratch-buffer loops: the
destination buffer's prefix is overwritten by the source values, and any excess
destination elements keep their old (stale) contents. -/
def buffer_write {α : Type} : List α → List α → List α
  | _old :: rest, s :: ss => s :: buffer_write rest ss
  | dst, _ => dst

/-- The result loop of `GoertzelAnalyzer::analyze`: iterates the zipped
`frequency_bins`/`coefficients`/`cur_transform` triple; each visited slot is
overwritten with `DiscreteHarmonic::new((z1·c.re - z2, z1·c.im) · nf, bin)`
where `(z1, z2)` is the recurrence folded over the windowed signal; slots
beyond the zip length keep their stale contents. -/
def goertzel_write (nf : ℝ) (wsig : List ℝ) :
    List ℕ → List (ℝ × ℂ) → List DiscreteHarmonic → List DiscreteHarmonic
  | bin :: bins, coeff :: coeffs, _old :: rest =>
    let z := wsig.foldl (goertzel_step coeff.1) (0, 0)
    ⟨(⟨z.1 * coeff.2.re - z.2, z.1 * coeff.2.im⟩ : ℂ) * (nf : ℂ), bin⟩
      :: goertzel_write nf wsig bins coeffs rest
  | _, _, ctb => ctb

/-- Embedding of `GoertzelAnalyzer` (its owned state). -/
structure GoertzelAnalyzer where
  windowing_values : List ℝ
  cur_transform : List DiscreteHarmonic
  cur_signal : List ℝ
  frequency_bins : List ℕ
  coefficients : List (ℝ × ℂ)
  normalization_factor : ℝ
  samples_per_window : ℕ

/-- `GoertzelAnalyzer::new`: sorts the requested bins ascending (no
deduplication), precomputes per-bin coefficients from the sorted list, the
window weights, the `1/√N` normalization factor, and zero-filled scratch
buffers. -/
def GoertzelAnalyzer.new (samples_per_window : ℕ) (frequency_bins : List ℕ)
    (windowing_fn : ℕ → ℕ → ℝ) : GoertzelAnalyzer :=
  { windowing_values := (List.range samples_per_window).map
      (fun i => windowing_fn i samples_per_window)
    cur_transform := List.replicate (frequency_bins.insertionSort (· ≤ ·)).length ⟨0, 0⟩
    cur_signal := List.replicate samples_per_window 0
    frequency_bins := frequency_bins.insertionSort (· ≤ ·)
    coefficients := (frequency_bins.insertionSort (· ≤ ·)).map
      (goertzel_coefficients samples_per_window)
    normalization_factor := 1 / Real.sqrt (samples_per_window : ℝ)
    samples_per_window := samples_per_window }

/-- `GoertzelAnalyzer::analyze`: panics (`none`) unless
`signal.len() == samples_per_window`; otherwise overwrites `cur_signal` with
the windowed samples, runs the per-bin recurrence loop into `cur_transform`,
and returns it. -/
def GoertzelAnalyzer.analyze (a : GoertzelAnalyzer) (signal : List ℝ) :
    Option (GoertzelAnalyzer × List DiscreteHarmonic) :=
  if signal.length = a.samples_per_window then
    let wsig := buffer_write a.cur_signal
      (List.zipWith (· * ·) signal a.windowing_values)
    let transform := goertzel_write a.normalization_factor wsig
      a.frequency_bins a.coefficients a.cur_transform
    some ({ a with cur_signal := wsig, cur_transform := transform }, transform)
  else none

/-- Modelled from the spec: the forward FFT supplied by the external `rustfft`
crate (not part of this repository) computes the discrete Fourier transform,
`N` complex outputs `X[k] = Σ_{n<N} x[n] · exp(-2πi·k·n/N)` from `N` complex
inputs. -/
def fft_process (x : List ℂ) : List ℂ :=
  (List.range x.length).map (fun k : ℕ =>
    ∑ n in Finset.range x.length,
      x.getD n 0 *
        Complex.exp (((-(2 * Real.pi * (k : ℝ) * (n : ℝ) / (x.length : ℝ)) : ℝ) : ℂ)
          * Complex.I))

/-- The phasor-overwriting loop of `StftAnalyzer::analyze`: each harmonic of
`cur_transform_bins` receives the corresponding FFT output scaled by the
normalization factor, keeping the bin identity assigned at construction;
harmonics beyond the source length keep their stale contents. -/
def stft_write (nf : ℝ) : List DiscreteHarmonic → List ℂ → List DiscreteHarmonic
  | old :: rest, src :: srcs =>
    { old with phasor := src * (nf : ℂ) } :: stft_write nf rest srcs
  | ctb, _ => ctb

/-- Embedding of `StftAnalyzer` (its owned state). -/
structure StftAnalyzer where
  sample_rate : ℕ
  samples_per_window : ℕ
  windowing_values : List ℝ
  complex_signal : List ℂ
  cur_transform_bins : List DiscreteHarmonic
  normalization_factor : ℝ

/-- `StftAnalyzer::new`: precomputes the window weights, a zero complex scratch
signal, `n_of_frequency_bins` result slots pre-tagged with bin identities
`0, 1, …`, and the `1/√N` normalization factor. -/
def StftAnalyzer.new (sample_rate samples_per_window : ℕ)
    (windowing_fn : ℕ → ℕ → ℝ) : StftAnalyzer :=
  { sample_rate := sample_rate
    samples_per_window := samples_per_window
    windowing_values := (List.range samples_per_window).map
      (fun i => windowing_fn i samples_per_window)
    complex_signal := List.replicate samples_per_window 0
    cur_transform_bins := (List.range (n_of_frequency_bins samples_per_window)).map
      (fun i => ⟨0, i⟩)
    normalization_factor := 1 / Real.sqrt (samples_per_window : ℝ) }

/-- `StftAnalyzer::analyze`: panics (`none`) unless
`signal.len() == samples_per_window`; otherwise overwrites `complex_signal`
with the windowed samples (zero imaginary part), runs the FFT in place, scales
the first `cur_transform_bins.len()` outputs into the result buffer and
returns it. -/
def StftAnalyzer.analyze (a : StftAnalyzer) (signal : List ℝ) :
    Option (StftAnalyzer × List DiscreteHarmonic) :=
  if signal.length = a.samples_per_window then
    let windowed := List.zipWith (fun s w => ((s * w : ℝ) : ℂ)) signal a.windowing_values
    let transformed := fft_process (buffer_write a.complex_signal windowed)
    let transform := stft_write a.normalization_factor a.cur_transform_bins
      (transformed.take a.cur_transform_bins.length)
    some ({ a with complex_signal := transformed, cur_transform_bins := transform },
      transform)
  else none

/-- Proof device: `e^{irI}` for a real angle `r`. -/
def cexp_I (r : ℝ) : ℂ := Complex.exp ((r : ℂ) * Complex.I)

/-- Proof device: the complex combination `z1·e^{iω} - z2` of the Goertzel
state pair, which the final step of the algorithm materializes. -/
def phasor_of (ω : ℝ) (z : ℝ × ℝ) : ℂ :=
  (z.1 : ℂ) * cexp_I ω - (z.2 : ℂ)

/-- The unnormalized complex value `(z1·c.re - z2, z1·c.im)` that one pass of
the `GoertzelAnalyzer::analyze` bin loop computes for bin `k`. -/
def goertzel_bin_value (samples_per_window k : ℕ) (wsig : List ℝ) : ℂ :=
  ⟨(wsig.foldl (goertzel_step (goertzel_coefficients samples_per_window k).1) (0, 0)).1
      * (goertzel_coefficients samples_per_window k).2.re
    - (wsig.foldl (goertzel_step (goertzel_coefficients samples_per_window k).1) (0, 0)).2,
   (wsig.foldl (goertzel_step (goertzel_coefficients samples_per_window k).1) (0, 0)).1
      * (goertzel_coefficients samples_per_window k).2.im⟩

/-- The windowed signal both analyzers compute: each sample multiplied by the
precomputed window weight at its index. -/
def windowed_signal (samples_per_window : ℕ) (windowing_fn : ℕ → ℕ → ℝ)
    (signal : List ℝ) : List ℝ :=
  List.zipWith (· * ·) signal
    ((List.range samples_per_window).map (fun i => windowing_fn i samples_per_window))

/-- The harmonic produced by the Goertzel analyzer for requested bin `k`. -/
def goertzel_entry (samples_per_window k : ℕ) (wsig : List ℝ) : DiscreteHarmonic :=
  ⟨goertzel_bin_value samples_per_window k wsig
      * ((1 / Real.sqrt (samples_per_window : ℝ) : ℝ) : ℂ), k⟩

/-- The harmonic produced by the STFT analyzer for bin `k`: the DFT value of
the windowed signal at `k`, scaled by the normalization factor. -/
def stft_entry (samples_per_window k : ℕ) (wsig : List ℝ) : DiscreteHarmonic :=
  ⟨(∑ n in Finset.range samples_per_window,
      (wsig.getD n 0 : ℂ) *
        Complex.exp (((-(2 * Real.pi * (k : ℝ) * (n : ℝ) / (samples_per_window : ℝ)) : ℝ) : ℂ)
          * Complex.I))
      * ((1 / Real.sqrt (samples_per_window : ℝ) : ℝ) : ℂ), k⟩

/-- The transform slice returned by `GoertzelAnalyzer::analyze`
(`[]` stands for the panic case). -/
def goertzel_output (samples_per_window : ℕ) (bins : List ℕ) (windowing_fn : ℕ → ℕ → ℝ)
    (signal : List ℝ) : List DiscreteHarmonic :=
  (((GoertzelAnalyzer.new samples_per_window bins windowing_fn).analyze signal).map
    Prod.snd).getD []

/-- The transform slice returned by `StftAnalyzer::analyze`
(`[]` stands for the panic case). -/
def stft_output (sample_rate samples_per_window : ℕ) (windowing_fn : ℕ → ℕ → ℝ)
    (signal : List ℝ) : List DiscreteHarmonic :=
  (((StftAnalyzer.new sample_rate samples_per_window windowing_fn).analyze signal).map
    Prod.snd).getD []

/-- Modelled from the spec: the per-bin Goertzel computation exactly as the
spec states it — `ω = 2π·k/window_length`, `coeff1 = 2·cos ω` precomputed,
`z1 = 0; z2 = 0; for each windowed sample s: z0 = s + coeff1·z1 - z2;
z2 = z1; z1 = z0`, and after all samples the complex result
`(z1·cos ω - z2, z1·sin ω) · (1/√window_length)`. -/
def goertzel_spec_value (window_length k : ℕ) (windowed : List ℝ) : ℂ :=
  (⟨(windowed.foldl
        (fun z s => (s + 2 * Real.cos (2 * Real.pi * (k : ℝ) / (window_length : ℝ)) * z.1
            - z.2, z.1)) (0, 0)).1
      * Real.cos (2 * Real.pi * (k : ℝ) / (window_length : ℝ))
    - (windowed.foldl
        (fun z s => (s + 2 * Real.cos (2 * Real.pi * (k : ℝ) / (window_length : ℝ)) * z.1
            - z.2, z.1)) (0, 0)).2,
   (windowed.foldl
        (fun z s => (s + 2 * Real.cos (2 * Real.pi * (k : ℝ) / (window_length : ℝ)) * z.1
            - z.2, z.1)) (0, 0)).1
      * Real.sin (2 * Real.pi * (k : ℝ) / (window_length : ℝ))⟩ : ℂ)
    * ((1 / Real.sqrt (window_length : ℝ) : ℝ) : ℂ)

end

/-! ### Basic facts about the frequency interval -/

theorem dft_interval_width_pos (sr N : ℕ) (hsr : 1 ≤ sr) (hN : 1 ≤ N) :
    0 < (dft_frequency_interval sr N).bin_width := by
  have hsr' : (0 : ℚ) < sr := by exact_mod_cast hsr
  have hN' : (0 : ℚ) < N := by exact_mod_cast hN
  have hM : (0 : ℚ) < ((n_of_frequency_bins N : ℕ) : ℚ) := by
    exact_mod_cast Nat.succ_pos (N / 2)
  unfold dft_frequency_interval DiscreteInterval.bin_width
  simp only
  apply div_pos _ hM
  have h1 : (0 : ℚ) < (sr : ℚ) / 2 := by positivity
  have h2 : (0 : ℚ) < (sr : ℚ) / 2 / N := by positivity
  linarith

theorem dft_midpoint_sub_lo (sr N b : ℕ) :
    (dft_frequency_interval sr N).bin_midpoint b - (dft_frequency_interval sr N).interval.1
      = (dft_frequency_interval sr N).bin_width * ((b : ℚ) + 1 / 2) := by
  unfold DiscreteInterval.bin_midpoint DiscreteInterval.bin_to_range_start
  ring

theorem nat_floor_add_half (b : ℕ) : ⌊(b : ℚ) + 1 / 2⌋₊ = b := by
  rw [Nat.floor_eq_iff (by positivity)]
  constructor
  · linarith
  · norm_num

/-- C2: for every `sample_rate ≥ 1`, `window_length ≥ 1` and bin index
`b < window_length/2 + 1`, converting the bin to its center frequency and back
recovers the bin index:
`DiscreteFrequency::from_frequency(sr, N, DiscreteFrequency::new(sr, N, b).frequency()).bin_idx() == b`. -/
theorem frequency_round_trip (sr N b : ℕ) (hsr : 1 ≤ sr) (hN : 1 ≤ N)
    (hb : b < n_of_frequency_bins N) :
    (DiscreteFrequency.from_frequency sr N
        (DiscreteFrequency.mk sr N b).frequency).bin_idx = b := by
  have hW : (dft_frequency_interval sr N).bin_width ≠ 0 :=
    ne_of_gt (dft_interval_width_pos sr N hsr hN)
  show frequency_to_bin_idx sr N (bin_idx_to_frequency sr N b) = b
  unfold frequency_to_bin_idx DiscreteInterval.value_to_bin
  have hsub :
      (bin_idx_to_frequency sr N b - (dft_frequency_interval sr N).interval.1)
        / (dft_frequency_interval sr N).bin_width = (b : ℚ) + 1 / 2 := by
    rw [show bin_idx_to_frequency sr N b = (dft_frequency_interval sr N).bin_midpoint b from rfl,
      dft_midpoint_sub_lo sr N b, mul_comm, mul_div_assoc, div_self hW, mul_one]
  rw [hsub]
  unfold trunc_usize
  rw [nat_floor_add_half]
  have hM : (dft_frequency_interval sr N).n_of_bins = n_of_frequency_bins N := rfl
  rw [hM]
  exact Nat.min_eq_left (Nat.le_sub_one_of_lt hb)

/-- C2 witness at `sample_rate = 2`, `window_length = 4`, `b = 1`. -/
theorem frequency_round_trip_witness :
    1 ≤ 2 ∧ 1 ≤ 4 ∧ 1 < n_of_frequency_bins 4 ∧
    (DiscreteFrequency.from_frequency 2 4
        (DiscreteFrequency.mk 2 4 1).frequency).bin_idx = 1 :=
  ⟨by norm_num, by norm_num, by decide,
   frequency_round_trip 2 4 1 (by norm_num) (by norm_num) (by decide)⟩

/-- C8: `frequency_to_bin_idx` is total (never errors or panics in release
semantics) and clamps into `[0, window_length/2]`: frequencies below the first
bin's interval map to bin `0`, frequencies at or above the end of the last
bin's interval map to the last bin, and a frequency exactly on the boundary
between two bins rounds up into the higher bin. -/
theorem frequency_to_bin_idx_clamps (sr N : ℕ) (f : ℚ) (hsr : 1 ≤ sr) (hN : 1 ≤ N) :
    frequency_to_bin_idx sr N f ≤ N / 2 ∧
    (f < (dft_frequency_interval sr N).interval.1 → frequency_to_bin_idx sr N f = 0) ∧
    ((dft_frequency_interval sr N).interval.2 ≤ f → frequency_to_bin_idx sr N f = N / 2) ∧
    (∀ b : ℕ, b + 1 < n_of_frequency_bins N →
      frequency_to_bin_idx sr N ((dft_frequency_interval sr N).bin_to_range_end b) = b + 1) := by
  have hWpos := dft_interval_width_pos sr N hsr hN
  have hW : (dft_frequency_interval sr N).bin_width ≠ 0 := ne_of_gt hWpos
  have hlast : (dft_frequency_interval sr N).n_of_bins - 1 = N / 2 := by
    show n_of_frequency_bins N - 1 = N / 2
    simp [n_of_frequency_bins]
  refine ⟨?_, ?_, ?_, ?_⟩
  · calc frequency_to_bin_idx sr N f
        ≤ (dft_frequency_interval sr N).n_of_bins - 1 := min_le_right _ _
      _ = N / 2 := hlast
  · intro hf
    have hneg : (f - (dft_frequency_interval sr N).interval.1)
        / (dft_frequency_interval sr N).bin_width < 0 :=
      div_neg_of_neg_of_pos (by linarith) hWpos
    unfold frequency_to_bin_idx DiscreteInterval.value_to_bin trunc_usize
    rw [Nat.floor_of_nonpos hneg.le]
    exact Nat.zero_min _
  · intro hf
    have hMQ : ((dft_frequency_interval sr N).n_of_bins : ℚ) ≠ 0 := by
      show ((n_of_frequency_bins N : ℕ) : ℚ) ≠ 0
      have h0 : n_of_frequency_bins N ≠ 0 := by unfold n_of_frequency_bins; omega
      exact_mod_cast h0
    have hspan : (dft_frequency_interval sr N).interval.2
        - (dft_frequency_interval sr N).interval.1
        = (dft_frequency_interval sr N).bin_width
            * ((dft_frequency_interval sr N).n_of_bins : ℚ) := by
      unfold DiscreteInterval.bin_width
      field_simp
    have hge : ((dft_frequency_interval sr N).n_of_bins : ℚ)
        ≤ (f - (dft_frequency_interval sr N).interval.1)
            / (dft_frequency_interval sr N).bin_width := by
      rw [le_div_iff₀ hWpos, mul_comm, ← hspan]
      linarith
    have hfloor : (dft_frequency_interval sr N).n_of_bins
        ≤ trunc_usize ((f - (dft_frequency_interval sr N).interval.1)
            / (dft_frequency_interval sr N).bin_width) :=
      Nat.le_floor hge
    unfold frequency_to_bin_idx DiscreteInterval.value_to_bin
    rw [min_eq_right (le_trans (Nat.sub_le _ 1) hfloor), hlast]
  · intro b hb
    have hsub : ((dft_frequency_interval sr N).bin_to_range_end b
        - (dft_frequency_interval sr N).interval.1)
        / (dft_frequency_interval sr N).bin_width = (b : ℚ) + 1 := by
      unfold DiscreteInterval.bin_to_range_end
      rw [add_sub_cancel_left, mul_comm, mul_div_assoc, div_self hW, mul_one]
    unfold frequency_to_bin_idx DiscreteInterval.value_to_bin trunc_usize
    rw [hsub]
    have hcast : ((b : ℚ) + 1) = ((b + 1 : ℕ) : ℚ) := by push_cast; ring
    rw [hcast, Nat.floor_natCast]
    have hble : b + 1 ≤ (dft_frequency_interval sr N).n_of_bins - 1 :=
      Nat.le_sub_one_of_lt hb
    exact Nat.min_eq_left hble

/-- C8 witness at `sample_rate = 2`, `window_length = 4`, `f = 7`. -/
theorem frequency_to_bin_idx_clamps_witness :
    1 ≤ 2 ∧ 1 ≤ 4 ∧
    (frequency_to_bin_idx 2 4 7 ≤ 4 / 2 ∧
     (7 < (dft_frequency_interval 2 4).interval.1 → frequency_to_bin_idx 2 4 7 = 0) ∧
     ((dft_frequency_interval 2 4).interval.2 ≤ 7 → frequency_to_bin_idx 2 4 7 = 4 / 2) ∧
     (∀ b : ℕ, b + 1 < n_of_frequency_bins 4 →
       frequency_to_bin_idx 2 4 ((dft_frequency_interval 2 4).bin_to_range_end b) = b + 1)) :=
  ⟨by norm_num, by norm_num, frequency_to_bin_idx_clamps 2 4 7 (by norm_num) (by norm_num)⟩

/-- C5 counterexample: at `sample_rate = 1`, `window_length = 1` (odd), the bin
width is `3/2`, not `sample_rate / window_length = 1`, and bin `0`'s center
frequency is `1/4`, not `0 * sample_rate / window_length = 0`. -/
theorem bin_frequency_claim_counterexample :
    frequency_gap 1 1 ≠ (1 : ℚ) / 1 ∧ bin_idx_to_frequency 1 1 0 ≠ (0 : ℚ) * 1 / 1 := by
  constructor
  · show (dft_frequency_interval 1 1).bin_width ≠ (1 : ℚ) / 1
    norm_num [dft_frequency_interval, DiscreteInterval.bin_width, n_of_frequency_bins]
  · show (dft_frequency_interval 1 1).bin_midpoint 0 ≠ (0 : ℚ) * 1 / 1
    norm_num [dft_frequency_interval, DiscreteInterval.bin_midpoint,
      DiscreteInterval.bin_to_range_start, DiscreteInterval.bin_width, n_of_frequency_bins]

/-- C5 (amended to even window lengths): for every `sample_rate ≥ 1` and even
`window_length ≥ 1`, every bin's frequency sub-interval has width
`sample_rate / window_length` and `bin_idx_to_frequency` gives the center
frequency `b * sample_rate / window_length` for every bin index `b`. -/
theorem bin_frequency_even_window (sr N : ℕ) (hsr : 1 ≤ sr) (hN : 1 ≤ N) (heven : 2 ∣ N) :
    frequency_gap sr N = (sr : ℚ) / N ∧
    ∀ b : ℕ, bin_idx_to_frequency sr N b = (b : ℚ) * sr / N := by
  obtain ⟨m, rfl⟩ := heven
  have hm : 1 ≤ m := by omega
  have hmQ : ((m : ℚ)) ≠ 0 := by exact_mod_cast Nat.one_le_iff_ne_zero.mp hm
  have hbins : n_of_frequency_bins (2 * m) = m + 1 := by
    unfold n_of_frequency_bins
    omega
  have hNQ : ((2 * m : ℕ) : ℚ) = 2 * (m : ℚ) := by push_cast; ring
  have hgap : frequency_gap sr (2 * m) = (sr : ℚ) / ((2 * m : ℕ) : ℚ) := by
    unfold frequency_gap dft_frequency_interval DiscreteInterval.bin_width
    simp only [hbins, hNQ]
    have hm1 : ((m : ℚ) + 1) ≠ 0 := by positivity
    rw [show ((m + 1 : ℕ) : ℚ) = (m : ℚ) + 1 by push_cast; ring]
    field_simp
    ring
  refine ⟨hgap, fun b => ?_⟩
  show (dft_frequency_interval sr (2 * m)).bin_midpoint b = (b : ℚ) * sr / ((2 * m : ℕ) : ℚ)
  unfold DiscreteInterval.bin_midpoint DiscreteInterval.bin_to_range_start
  have hWg : (dft_frequency_interval sr (2 * m)).bin_width = (sr : ℚ) / ((2 * m : ℕ) : ℚ) := hgap
  rw [hWg]
  show -((sr : ℚ) / 2 / ((2 * m : ℕ) : ℚ)) + (sr : ℚ) / ((2 * m : ℕ) : ℚ) * (b : ℚ)
      + (sr : ℚ) / ((2 * m : ℕ) : ℚ) / 2 = (b : ℚ) * sr / ((2 * m : ℕ) : ℚ)
  rw [hNQ]
  field_simp
  ring

/-- C5 witness at `sample_rate = 1`, `window_length = 2`. -/
theorem bin_frequency_even_window_witness :
    1 ≤ 1 ∧ 1 ≤ 2 ∧ 2 ∣ 2 ∧
    (frequency_gap 1 2 = (1 : ℚ) / 2 ∧
     ∀ b : ℕ, bin_idx_to_frequency 1 2 b = (b : ℚ) * 1 / 2) :=
  ⟨le_refl 1, by norm_num, ⟨1, rfl⟩,
   bin_frequency_even_window 1 2 (le_refl 1) (by norm_num) ⟨1, rfl⟩⟩

/-- C6 counterexample: at `sample_rate = 1`, `window_length = 1` (odd), the last
bin's center frequency is `1/4`, which differs from `sample_rate / 2 = 1/2` by
far more than `f32::EPSILON`. -/
theorem nyquist_claim_counterexample :
    f32_epsilon < |bin_idx_to_frequency 1 1 (n_of_frequency_bins 1 - 1) - (1 : ℚ) / 2| := by
  have h0 : n_of_frequency_bins 1 - 1 = 0 := by decide
  rw [h0]
  have hv : bin_idx_to_frequency 1 1 0 = 1 / 4 := by
    show (dft_frequency_interval 1 1).bin_midpoint 0 = 1 / 4
    norm_num [dft_frequency_interval, DiscreteInterval.bin_midpoint,
      DiscreteInterval.bin_to_range_start, DiscreteInterval.bin_width, n_of_frequency_bins]
  rw [hv, show (1 : ℚ) / 4 - 1 / 2 = -(1 / 4) by norm_num, abs_neg,
    abs_of_nonneg (by norm_num)]
  norm_num [f32_epsilon]

/-- C6 (amended to even window lengths for the frequency half): for every
`sample_rate ≥ 1` and `window_length ≥ 1`, the last bin index
`n_of_frequency_bins(window_length) - 1` equals `window_length / 2`, and when
`window_length` is even that bin's center frequency equals `sample_rate / 2`
(within `f32::EPSILON`; the rational model gives it exactly). -/
theorem nyquist_last_bin (sr N : ℕ) (hsr : 1 ≤ sr) (hN : 1 ≤ N) :
    n_of_frequency_bins N - 1 = N / 2 ∧
    (2 ∣ N → |bin_idx_to_frequency sr N (N / 2) - (sr : ℚ) / 2| ≤ f32_epsilon) := by
  refine ⟨by simp [n_of_frequency_bins], fun heven => ?_⟩
  have hmid := (bin_frequency_even_window sr N hsr hN heven).2 (N / 2)
  obtain ⟨m, rfl⟩ := heven
  have hm : 1 ≤ m := by omega
  have hmQ : ((m : ℚ)) ≠ 0 := by exact_mod_cast Nat.one_le_iff_ne_zero.mp hm
  have hhalf : (2 * m) / 2 = m := by omega
  rw [hhalf] at hmid ⊢
  rw [hmid]
  have : (m : ℚ) * sr / ((2 * m : ℕ) : ℚ) = (sr : ℚ) / 2 := by
    rw [show ((2 * m : ℕ) : ℚ) = 2 * (m : ℚ) by push_cast; ring]
    field_simp
    ring
  rw [this, sub_self, abs_zero]
  norm_num [f32_epsilon]

/-- C6 witness at `sample_rate = 1`, `window_length = 2`. -/
theorem nyquist_last_bin_witness :
    1 ≤ 1 ∧ 1 ≤ 2 ∧
    (n_of_frequency_bins 2 - 1 = 2 / 2 ∧
     (2 ∣ 2 → |bin_idx_to_frequency 1 2 (2 / 2) - (1 : ℚ) / 2| ≤ f32_epsilon)) :=
  ⟨le_refl 1, by norm_num, nyquist_last_bin 1 2 (le_refl 1) (by norm_num)⟩

/-- C10: bin-shift arithmetic on `DiscreteFrequency` performs no range
validation: `b - n` underflows (panics, embedded as `none`) exactly when
`n > b.bin_idx()`, while `b + n` always succeeds and simply adds to the bin
index, with no clamping against the valid range `[0, window_length/2]`. -/
theorem bin_shift_unchecked (b : DiscreteFrequency) (n : ℕ) :
    (b.sub n = none ↔ b.bin_idx < n) ∧
    (b.add n).bin_idx = b.bin_idx + n ∧
    (b.add n).sample_rate = b.sample_rate ∧
    (b.add n).samples_per_window = b.samples_per_window := by
  refine ⟨?_, rfl, rfl, rfl⟩
  unfold DiscreteFrequency.sub
  by_cases h : n ≤ b.bin_idx
  · rw [if_pos h]
    exact ⟨fun hc => (Option.some_ne_none _ hc).elim, fun hlt => absurd hlt (by omega)⟩
  · rw [if_neg h]
    exact ⟨fun _ => by omega, fun _ => rfl⟩


theorem cexp_I_zero : cexp_I 0 = 1 := by
  simp [cexp_I]

theorem cexp_I_add (a b : ℝ) : cexp_I (a + b) = cexp_I a * cexp_I b := by
  unfold cexp_I
  rw [← Complex.exp_add]
  congr 1
  push_cast
  ring

theorem two_cos_mul_cexp (ω : ℝ) :
    ((2 * Real.cos ω : ℝ) : ℂ) * cexp_I ω = cexp_I ω * cexp_I ω + 1 := by
  have hcos : ((2 * Real.cos ω : ℝ) : ℂ) = cexp_I ω + cexp_I (-ω) := by
    unfold cexp_I
    push_cast
    rw [Complex.cos]
    ring
  have hone : cexp_I (-ω) * cexp_I ω = 1 := by
    rw [← cexp_I_add, neg_add_cancel, cexp_I_zero]
  rw [hcos, add_mul, hone]

theorem phasor_of_step (ω s : ℝ) (z : ℝ × ℝ) :
    phasor_of ω (goertzel_step (2 * Real.cos ω) z s)
      = cexp_I ω * ((s : ℂ) + phasor_of ω z) := by
  unfold phasor_of goertzel_step
  have h2c := two_cos_mul_cexp ω
  push_cast at h2c ⊢
  linear_combination (z.1 : ℂ) * h2c

theorem phasor_of_foldl (ω : ℝ) (l : List ℝ) :
    ∀ z : ℝ × ℝ,
      phasor_of ω (l.foldl (goertzel_step (2 * Real.cos ω)) z)
        = cexp_I ((l.length : ℝ) * ω) *
            (phasor_of ω z +
              ∑ m in Finset.range l.length,
                (l.getD m 0 : ℂ) * cexp_I (-((m : ℝ) * ω))) := by
  induction l with
  | nil =>
    intro z
    simp [cexp_I_zero]
  | cons x t ih =>
    intro z
    rw [List.foldl_cons, ih (goertzel_step (2 * Real.cos ω) z x), phasor_of_step]
    rw [List.length_cons,
      Finset.sum_range_succ'
        (fun m => (((x :: t).getD m 0 : ℝ) : ℂ) * cexp_I (-((m : ℝ) * ω))) t.length]
    simp only [List.getD_cons_succ, List.getD_cons_zero, Nat.cast_zero, zero_mul,
      neg_zero, cexp_I_zero, mul_one]
    have h1 : cexp_I (((t.length + 1 : ℕ) : ℝ) * ω) = cexp_I ((t.length : ℝ) * ω) * cexp_I ω := by
      rw [← cexp_I_add]
      congr 1
      push_cast
      ring
    have h2 : cexp_I ((t.length : ℝ) * ω) * cexp_I ω *
          (∑ m in Finset.range t.length,
            (t.getD m 0 : ℂ) * cexp_I (-(((m + 1 : ℕ) : ℝ) * ω)))
        = cexp_I ((t.length : ℝ) * ω) *
          (∑ m in Finset.range t.length, (t.getD m 0 : ℂ) * cexp_I (-((m : ℝ) * ω))) := by
      rw [mul_assoc, Finset.mul_sum, Finset.mul_sum, Finset.mul_sum]
      rw [← Finset.sum_attach (Finset.range t.length)
        (fun m => cexp_I ((t.length : ℝ) * ω) *
          (cexp_I ω * ((t.getD m 0 : ℂ) * cexp_I (-(((m + 1 : ℕ) : ℝ) * ω))))),
        ← Finset.sum_attach (Finset.range t.length)
        (fun m => cexp_I ((t.length : ℝ) * ω) * ((t.getD m 0 : ℂ) * cexp_I (-((m : ℝ) * ω))))]
      refine Finset.sum_congr rfl (fun m _ => ?_)
      have hm : cexp_I ω * cexp_I (-(((m.1 + 1 : ℕ) : ℝ) * ω)) = cexp_I (-((m.1 : ℝ) * ω)) := by
        rw [← cexp_I_add]
        congr 1
        push_cast
        ring
      calc cexp_I ((t.length : ℝ) * ω) *
            (cexp_I ω * ((t.getD m.1 0 : ℂ) * cexp_I (-(((m.1 + 1 : ℕ) : ℝ) * ω))))
          = cexp_I ((t.length : ℝ) * ω) *
              ((t.getD m.1 0 : ℂ) * (cexp_I ω * cexp_I (-(((m.1 + 1 : ℕ) : ℝ) * ω)))) := by
            ring
        _ = cexp_I ((t.length : ℝ) * ω) * ((t.getD m.1 0 : ℂ) * cexp_I (-((m.1 : ℝ) * ω))) := by
            rw [hm]
    push_cast at h1 h2 ⊢
    rw [h1]
    linear_combination -h2

theorem phasor_of_zero_pair (ω : ℝ) : phasor_of ω (0, 0) = 0 := by
  simp [phasor_of]

theorem cexp_I_nat_two_pi (k : ℕ) : cexp_I ((k : ℝ) * (2 * Real.pi)) = 1 := by
  unfold cexp_I
  rw [show ((((k : ℝ) * (2 * Real.pi) : ℝ)) : ℂ) * Complex.I
      = ((k : ℤ) : ℂ) * (2 * (Real.pi : ℂ) * Complex.I) by push_cast; ring]
  exact Complex.exp_int_mul_two_pi_mul_I (k : ℤ)

theorem mk_eq_phasor_of (ω : ℝ) (z : ℝ × ℝ) :
    (⟨z.1 * Real.cos ω - z.2, z.1 * Real.sin ω⟩ : ℂ) = phasor_of ω z := by
  unfold phasor_of cexp_I
  apply Complex.ext
  · simp [Complex.sub_re, Complex.mul_re, Complex.exp_ofReal_mul_I_re,
      Complex.exp_ofReal_mul_I_im]
  · simp [Complex.sub_im, Complex.mul_im, Complex.exp_ofReal_mul_I_re,
      Complex.exp_ofReal_mul_I_im]

theorem goertzel_bin_value_eq_phasor (N k : ℕ) (wsig : List ℝ) :
    goertzel_bin_value N k wsig
      = phasor_of (TAU * (k : ℝ) / (N : ℝ))
          (wsig.foldl (goertzel_step (2 * Real.cos (TAU * (k : ℝ) / (N : ℝ)))) (0, 0)) := by
  unfold goertzel_bin_value goertzel_coefficients
  exact mk_eq_phasor_of _ _

theorem goertzel_bin_value_eq_dft (N k : ℕ) (hN : 1 ≤ N) (wsig : List ℝ)
    (hw : wsig.length = N) :
    goertzel_bin_value N k wsig
      = ∑ n in Finset.range N,
          (wsig.getD n 0 : ℂ) *
            cexp_I (-(2 * Real.pi * (k : ℝ) * (n : ℝ) / (N : ℝ))) := by
  rw [goertzel_bin_value_eq_phasor, phasor_of_foldl, hw, phasor_of_zero_pair, zero_add]
  have hN0 : (N : ℝ) ≠ 0 := by
    have : (0 : ℝ) < (N : ℝ) := by exact_mod_cast Nat.lt_of_lt_of_le Nat.zero_lt_one hN
    exact ne_of_gt this
  have hfull : (N : ℝ) * (TAU * (k : ℝ) / (N : ℝ)) = (k : ℝ) * (2 * Real.pi) := by
    rw [show TAU = 2 * Real.pi from rfl]
    field_simp
    ring
  rw [hfull, cexp_I_nat_two_pi, one_mul]
  refine Finset.sum_congr rfl (fun n _ => ?_)
  congr 2
  rw [show TAU = 2 * Real.pi from rfl]
  ring

theorem getD_map_ofReal (l : List ℝ) (n : ℕ) :
    (l.map Complex.ofReal).getD n 0 = ((l.getD n 0 : ℝ) : ℂ) := by
  induction l generalizing n with
  | nil => simp
  | cons x t ih =>
    cases n with
    | zero => rfl
    | succ n => rw [List.map_cons, List.getD_cons_succ, List.getD_cons_succ]; exact ih n

theorem zipWith_windowed_map (sig wv : List ℝ) :
    List.zipWith (fun s w => ((s * w : ℝ) : ℂ)) sig wv
      = (List.zipWith (· * ·) sig wv).map Complex.ofReal := by
  induction sig generalizing wv with
  | nil => simp
  | cons x t ih =>
    cases wv with
    | nil => simp
    | cons y u =>
      simp only [List.zipWith_cons_cons, List.map_cons]
      rw [ih u]

theorem buffer_write_eq_of_length {α : Type} :
    ∀ dst src : List α, dst.length = src.length → buffer_write dst src = src := by
  intro dst
  induction dst with
  | nil =>
    intro src h
    cases src with
    | nil => rfl
    | cons s ss => simp at h
  | cons d ds ih =>
    intro src h
    cases src with
    | nil => simp at h
    | cons s ss =>
      simp only [buffer_write]
      rw [ih ss (by simpa using h)]

theorem goertzel_write_map (nf : ℝ) (wsig : List ℝ) (N : ℕ) :
    ∀ (bins : List ℕ) (ctb : List DiscreteHarmonic), ctb.length = bins.length →
      goertzel_write nf wsig bins (bins.map (goertzel_coefficients N)) ctb
        = bins.map (fun k =>
            ⟨goertzel_bin_value N k wsig * ((nf : ℝ) : ℂ), k⟩) := by
  intro bins
  induction bins with
  | nil =>
    intro ctb h
    have : ctb = [] := List.length_eq_zero.mp h
    subst this
    rfl
  | cons k bs ih =>
    intro ctb h
    cases ctb with
    | nil => simp at h
    | cons c cs =>
      have htail := ih cs (by simpa using h)
      simp only [goertzel_bin_value] at htail ⊢
      simp only [List.map_cons, goertzel_write]
      rw [htail]

theorem goertzel_write_length (nf : ℝ) (wsig : List ℝ) :
    ∀ (bins : List ℕ) (coeffs : List (ℝ × ℂ)) (ctb : List DiscreteHarmonic),
      (goertzel_write nf wsig bins coeffs ctb).length = ctb.length := by
  intro bins
  induction bins with
  | nil => intro coeffs ctb; cases coeffs <;> cases ctb <;> rfl
  | cons k bs ih =>
    intro coeffs ctb
    cases coeffs with
    | nil => cases ctb <;> rfl
    | cons c cs =>
      cases ctb with
      | nil => rfl
      | cons d ds =>
        simp only [goertzel_write, List.length_cons]
        rw [ih cs ds]

theorem stft_write_map (nf : ℝ) (l : List ℕ) (u : ℕ → DiscreteHarmonic) (v : ℕ → ℂ) :
    stft_write nf (l.map u) (l.map v)
      = l.map (fun i => ⟨v i * (nf : ℂ), (u i).bin_idx⟩) := by
  induction l with
  | nil => rfl
  | cons i t ih =>
    simp only [List.map_cons, stft_write]
    rw [ih]

theorem stft_write_length (nf : ℝ) :
    ∀ (ctb : List DiscreteHarmonic) (srcs : List ℂ),
      (stft_write nf ctb srcs).length = ctb.length := by
  intro ctb
  induction ctb with
  | nil => intro srcs; cases srcs <;> rfl
  | cons c cs ih =>
    intro srcs
    cases srcs with
    | nil => rfl
    | cons s ss =>
      simp only [stft_write, List.length_cons]
      rw [ih ss]

theorem fft_process_length (x : List ℂ) : (fft_process x).length = x.length := by
  unfold fft_process
  rw [List.length_map, List.length_range]

theorem windowed_signal_length (N : ℕ) (w : ℕ → ℕ → ℝ) (signal : List ℝ)
    (hlen : signal.length = N) : (windowed_signal N w signal).length = N := by
  unfold windowed_signal
  rw [List.length_zipWith, List.length_map, List.length_range, hlen, min_self]

theorem goertzel_analyze_new_eq (N : ℕ) (bins : List ℕ) (w : ℕ → ℕ → ℝ)
    (signal : List ℝ) (hlen : signal.length = N) :
    (GoertzelAnalyzer.new N bins w).analyze signal
      = some ({ GoertzelAnalyzer.new N bins w with
                  cur_signal := windowed_signal N w signal,
                  cur_transform := (bins.insertionSort (· ≤ ·)).map
                    (fun k => goertzel_entry N k (windowed_signal N w signal)) },
              (bins.insertionSort (· ≤ ·)).map
                (fun k => goertzel_entry N k (windowed_signal N w signal))) := by
  have hbw : buffer_write (List.replicate N (0 : ℝ))
      (List.zipWith (· * ·) signal ((List.range N).map (fun i => w i N)))
      = List.zipWith (· * ·) signal ((List.range N).map (fun i => w i N)) :=
    buffer_write_eq_of_length _ _
      (by rw [List.length_replicate, List.length_zipWith, List.length_map,
        List.length_range, hlen, min_self])
  have hgw := goertzel_write_map (1 / Real.sqrt (N : ℝ))
      (List.zipWith (· * ·) signal ((List.range N).map (fun i => w i N))) N
      (bins.insertionSort (· ≤ ·))
      (List.replicate (bins.insertionSort (· ≤ ·)).length (⟨0, 0⟩ : DiscreteHarmonic))
      (by rw [List.length_replicate])
  unfold GoertzelAnalyzer.analyze GoertzelAnalyzer.new
  dsimp only
  rw [if_pos hlen, hbw, hgw]
  unfold windowed_signal goertzel_entry
  rfl

theorem stft_analyze_new_eq (sr N : ℕ) (w : ℕ → ℕ → ℝ) (signal : List ℝ)
    (hN : 1 ≤ N) (hlen : signal.length = N) :
    (StftAnalyzer.new sr N w).analyze signal
      = some ({ StftAnalyzer.new sr N w with
                  complex_signal :=
                    fft_process ((windowed_signal N w signal).map Complex.ofReal),
                  cur_transform_bins := (List.range (n_of_frequency_bins N)).map
                    (fun k => stft_entry N k (windowed_signal N w signal)) },
              (List.range (n_of_frequency_bins N)).map
                (fun k => stft_entry N k (windowed_signal N w signal))) := by
  have hwmap : List.zipWith (fun s v => ((s * v : ℝ) : ℂ)) signal
      ((List.range N).map (fun i => w i N))
      = (windowed_signal N w signal).map Complex.ofReal := by
    unfold windowed_signal
    exact zipWith_windowed_map _ _
  have hwclen : ((windowed_signal N w signal).map Complex.ofReal).length = N := by
    rw [List.length_map, windowed_signal_length N w signal hlen]
  have hbw : buffer_write (List.replicate N (0 : ℂ))
      ((windowed_signal N w signal).map Complex.ofReal)
      = (windowed_signal N w signal).map Complex.ofReal :=
    buffer_write_eq_of_length _ _ (by rw [List.length_replicate, hwclen])
  have hfft : fft_process ((windowed_signal N w signal).map Complex.ofReal)
      = (List.range N).map (fun k : ℕ =>
          ∑ n in Finset.range N,
            ((windowed_signal N w signal).getD n 0 : ℂ) *
              Complex.exp (((-(2 * Real.pi * (k : ℝ) * (n : ℝ) / (N : ℝ)) : ℝ) : ℂ)
                * Complex.I)) := by
    unfold fft_process
    rw [hwclen]
    congr 1
    funext k
    refine Finset.sum_congr rfl (fun n _ => ?_)
    rw [getD_map_ofReal]
  have htake : ((List.range N).map (fun k : ℕ =>
        ∑ n in Finset.range N,
          ((windowed_signal N w signal).getD n 0 : ℂ) *
            Complex.exp (((-(2 * Real.pi * (k : ℝ) * (n : ℝ) / (N : ℝ)) : ℝ) : ℂ)
              * Complex.I))).take (n_of_frequency_bins N)
      = (List.range (n_of_frequency_bins N)).map (fun k : ℕ =>
          ∑ n in Finset.range N,
            ((windowed_signal N w signal).getD n 0 : ℂ) *
              Complex.exp (((-(2 * Real.pi * (k : ℝ) * (n : ℝ) / (N : ℝ)) : ℝ) : ℂ)
                * Complex.I)) := by
    rw [← List.map_take, List.take_range, min_eq_left]
    unfold n_of_frequency_bins
    omega
  unfold StftAnalyzer.analyze StftAnalyzer.new
  dsimp only
  rw [if_pos hlen, hwmap, hbw, hfft]
  rw [show ((List.range (n_of_frequency_bins N)).map
      (fun i : ℕ => (⟨0, i⟩ : DiscreteHarmonic))).length = n_of_frequency_bins N by
    rw [List.length_map, List.length_range]]
  rw [htake, stft_write_map]
  rw [show (fun i : ℕ =>
      (⟨(∑ n in Finset.range N,
          ((windowed_signal N w signal).getD n 0 : ℂ) *
            Complex.exp (((-(2 * Real.pi * (i : ℝ) * (n : ℝ) / (N : ℝ)) : ℝ) : ℂ)
              * Complex.I))
          * ((1 / Real.sqrt (N : ℝ) : ℝ) : ℂ),
        (⟨(0 : ℂ), i⟩ : DiscreteHarmonic).bin_idx⟩ : DiscreteHarmonic))
      = fun k : ℕ => stft_entry N k (windowed_signal N w signal) from
    funext fun k => rfl]

/-- C4: for both analyzers, `analyze` fails loudly (the unconditional
`assert_eq!`, embedded as `none`) exactly when the signal length differs from
the configured `window_length`; when the lengths match it never fails and
returns one result per configured bin (`n_of_frequency_bins` for the STFT,
one per requested bin for Goertzel). -/
theorem analyze_length_contract (sr N : ℕ) (bins : List ℕ) (w : ℕ → ℕ → ℝ)
    (signal : List ℝ) :
    (((StftAnalyzer.new sr N w).analyze signal = none) ↔ signal.length ≠ N) ∧
    (((GoertzelAnalyzer.new N bins w).analyze signal = none) ↔ signal.length ≠ N) ∧
    (signal.length = N →
      ∃ s out, (StftAnalyzer.new sr N w).analyze signal = some (s, out) ∧
        out.length = n_of_frequency_bins N) ∧
    (signal.length = N →
      ∃ s out, (GoertzelAnalyzer.new N bins w).analyze signal = some (s, out) ∧
        out.length = bins.length) := by
  refine ⟨?_, ?_, ?_, ?_⟩
  · unfold StftAnalyzer.analyze StftAnalyzer.new
    dsimp only
    by_cases h : signal.length = N
    · rw [if_pos h]
      simp [h]
    · rw [if_neg h]
      simp [h]
  · unfold GoertzelAnalyzer.analyze GoertzelAnalyzer.new
    dsimp only
    by_cases h : signal.length = N
    · rw [if_pos h]
      simp [h]
    · rw [if_neg h]
      simp [h]
  · intro h
    unfold StftAnalyzer.analyze StftAnalyzer.new
    dsimp only
    rw [if_pos h]
    refine ⟨_, _, rfl, ?_⟩
    rw [stft_write_length, List.length_map, List.length_range]
  · intro h
    unfold GoertzelAnalyzer.analyze GoertzelAnalyzer.new
    dsimp only
    rw [if_pos h]
    refine ⟨_, _, rfl, ?_⟩
    rw [goertzel_write_length, List.length_replicate, List.length_insertionSort]

/-- C4 witness at `sample_rate = 1`, `window_length = 2`, bins `[0, 1]`,
identity windowing, signal `[0, 0]`. -/
theorem analyze_length_contract_witness :
    (((StftAnalyzer.new 1 2 (fun _ _ => 1)).analyze [0, 0] = none) ↔
      ([(0 : ℝ), 0]).length ≠ 2) ∧
    (((GoertzelAnalyzer.new 2 [0, 1] (fun _ _ => 1)).analyze [0, 0] = none) ↔
      ([(0 : ℝ), 0]).length ≠ 2) ∧
    (([(0 : ℝ), 0]).length = 2 →
      ∃ s out, (StftAnalyzer.new 1 2 (fun _ _ => 1)).analyze [0, 0] = some (s, out) ∧
        out.length = n_of_frequency_bins 2) ∧
    (([(0 : ℝ), 0]).length = 2 →
      ∃ s out, (GoertzelAnalyzer.new 2 [0, 1] (fun _ _ => 1)).analyze [0, 0] = some (s, out) ∧
        out.length = ([0, 1] : List ℕ).length) :=
  analyze_length_contract 1 2 [0, 1] (fun _ _ => 1) [0, 0]

/-- C7: `GoertzelAnalyzer::new` sorts the requested bin list ascending without
deduplicating (the stored list is a sorted permutation of the input), and
`analyze` returns exactly one harmonic per input entry, tagged with the sorted
bin indices in order (so duplicates in the input yield duplicate entries). -/
theorem goertzel_sorted_not_deduplicated (N : ℕ) (bins : List ℕ) (w : ℕ → ℕ → ℝ)
    (signal : List ℝ) (hlen : signal.length = N) :
    List.Sorted (· ≤ ·) (GoertzelAnalyzer.new N bins w).frequency_bins ∧
    ((GoertzelAnalyzer.new N bins w).frequency_bins).Perm bins ∧
    (goertzel_output N bins w signal).map DiscreteHarmonic.bin_idx
      = (GoertzelAnalyzer.new N bins w).frequency_bins ∧
    (goertzel_output N bins w signal).length = bins.length := by
  have hout : goertzel_output N bins w signal
      = (bins.insertionSort (· ≤ ·)).map
          (fun k => goertzel_entry N k (windowed_signal N w signal)) := by
    unfold goertzel_output
    rw [goertzel_analyze_new_eq N bins w signal hlen]
    rfl
  refine ⟨List.sorted_insertionSort _ bins, List.perm_insertionSort _ bins, ?_, ?_⟩
  · rw [hout, List.map_map]
    rw [show (DiscreteHarmonic.bin_idx ∘
        fun k => goertzel_entry N k (windowed_signal N w signal)) = id from
      funext fun k => rfl]
    exact List.map_id _
  · rw [hout, List.length_map, List.length_insertionSort]

/-- C7 witness: window length `2`, duplicated unsorted bins `[1, 0, 1]`,
identity windowing, signal `[0, 0]`. -/
theorem goertzel_sorted_not_deduplicated_witness :
    ([(0 : ℝ), 0]).length = 2 ∧
    (List.Sorted (· ≤ ·) (GoertzelAnalyzer.new 2 [1, 0, 1] (fun _ _ => 1)).frequency_bins ∧
     ((GoertzelAnalyzer.new 2 [1, 0, 1] (fun _ _ => 1)).frequency_bins).Perm [1, 0, 1] ∧
     (goertzel_output 2 [1, 0, 1] (fun _ _ => 1) [0, 0]).map DiscreteHarmonic.bin_idx
       = (GoertzelAnalyzer.new 2 [1, 0, 1] (fun _ _ => 1)).frequency_bins ∧
     (goertzel_output 2 [1, 0, 1] (fun _ _ => 1) [0, 0]).length
       = ([1, 0, 1] : List ℕ).length) :=
  ⟨rfl, goertzel_sorted_not_deduplicated 2 [1, 0, 1] (fun _ _ => 1) [0, 0] rfl⟩

/-- C3: the Goertzel analyzer computes every requested bin by exactly the
algorithm the spec states — `ω = 2π·k/window_length`, `coeff1 = 2·cos ω`
(precomputed at construction), the `z0 = s + coeff1·z1 - z2; z2 = z1; z1 = z0`
recurrence over the windowed samples, and the final phasor
`(z1·cos ω - z2, z1·sin ω) · (1/√window_length)`. -/
theorem goertzel_matches_stated_algorithm (N : ℕ) (bins : List ℕ) (w : ℕ → ℕ → ℝ)
    (signal : List ℝ) (hlen : signal.length = N) :
    goertzel_output N bins w signal
      = (bins.insertionSort (· ≤ ·)).map (fun k =>
          ⟨goertzel_spec_value N k (windowed_signal N w signal), k⟩) := by
  unfold goertzel_output
  rw [goertzel_analyze_new_eq N bins w signal hlen]
  rfl

/-- C3 witness: window length `1`, bin `[0]`, identity windowing, signal `[0]`. -/
theorem goertzel_matches_stated_algorithm_witness :
    ([(0 : ℝ)]).length = 1 ∧
    goertzel_output 1 [0] (fun _ _ => 1) [0]
      = (([0] : List ℕ).insertionSort (· ≤ ·)).map (fun k =>
          ⟨goertzel_spec_value 1 k (windowed_signal 1 (fun _ _ => 1) [0]), k⟩) :=
  ⟨rfl, goertzel_matches_stated_algorithm 1 [0] (fun _ _ => 1) [0] rfl⟩

theorem goertzel_second_call (N : ℕ) (bins : List ℕ) (w : ℕ → ℕ → ℝ)
    (signal : List ℝ) (hlen : signal.length = N) :
    ({ GoertzelAnalyzer.new N bins w with
        cur_signal := windowed_signal N w signal,
        cur_transform := (bins.insertionSort (· ≤ ·)).map
          (fun k => goertzel_entry N k (windowed_signal N w signal)) }).analyze signal
      = some ({ GoertzelAnalyzer.new N bins w with
            cur_signal := windowed_signal N w signal,
            cur_transform := (bins.insertionSort (· ≤ ·)).map
              (fun k => goertzel_entry N k (windowed_signal N w signal)) },
          (bins.insertionSort (· ≤ ·)).map
            (fun k => goertzel_entry N k (windowed_signal N w signal))) := by
  unfold GoertzelAnalyzer.analyze GoertzelAnalyzer.new windowed_signal
  dsimp only
  rw [if_pos hlen]
  rw [buffer_write_eq_of_length _ _ rfl]
  rw [goertzel_write_map (1 / Real.sqrt (N : ℝ)) _ N (bins.insertionSort (· ≤ ·)) _
    (by rw [List.length_map])]
  unfold goertzel_entry
  rfl

theorem fft_windowed_eq (N : ℕ) (w : ℕ → ℕ → ℝ) (signal : List ℝ)
    (hlen : signal.length = N) :
    fft_process ((windowed_signal N w signal).map Complex.ofReal)
      = (List.range N).map (fun k : ℕ =>
          ∑ n in Finset.range N,
            ((windowed_signal N w signal).getD n 0 : ℂ) *
              Complex.exp (((-(2 * Real.pi * (k : ℝ) * (n : ℝ) / (N : ℝ)) : ℝ) : ℂ)
                * Complex.I)) := by
  unfold fft_process
  rw [show ((windowed_signal N w signal).map Complex.ofReal).length = N by
    rw [List.length_map, windowed_signal_length N w signal hlen]]
  congr 1
  funext k
  refine Finset.sum_congr rfl (fun n _ => ?_)
  rw [getD_map_ofReal]

theorem stft_second_call (sr N : ℕ) (w : ℕ → ℕ → ℝ) (signal : List ℝ)
    (hN : 1 ≤ N) (hlen : signal.length = N) :
    ({ StftAnalyzer.new sr N w with
        complex_signal := fft_process ((windowed_signal N w signal).map Complex.ofReal),
        cur_transform_bins := (List.range (n_of_frequency_bins N)).map
          (fun k => stft_entry N k (windowed_signal N w signal)) }).analyze signal
      = some ({ StftAnalyzer.new sr N w with
            complex_signal := fft_process ((windowed_signal N w signal).map Complex.ofReal),
            cur_transform_bins := (List.range (n_of_frequency_bins N)).map
              (fun k => stft_entry N k (windowed_signal N w signal)) },
          (List.range (n_of_frequency_bins N)).map
            (fun k => stft_entry N k (windowed_signal N w signal))) := by
  have hwmap : List.zipWith (fun s v => ((s * v : ℝ) : ℂ)) signal
      ((List.range N).map (fun i => w i N))
      = (windowed_signal N w signal).map Complex.ofReal := by
    unfold windowed_signal
    exact zipWith_windowed_map _ _
  have hwclen : ((windowed_signal N w signal).map Complex.ofReal).length = N := by
    rw [List.length_map, windowed_signal_length N w signal hlen]
  have hbw : buffer_write (fft_process ((windowed_signal N w signal).map Complex.ofReal))
      ((windowed_signal N w signal).map Complex.ofReal)
      = (windowed_signal N w signal).map Complex.ofReal :=
    buffer_write_eq_of_length _ _ (by rw [fft_process_length, hwclen])
  have htake : ((List.range N).map (fun k : ℕ =>
        ∑ n in Finset.range N,
          ((windowed_signal N w signal).getD n 0 : ℂ) *
            Complex.exp (((-(2 * Real.pi * (k : ℝ) * (n : ℝ) / (N : ℝ)) : ℝ) : ℂ)
              * Complex.I))).take (n_of_frequency_bins N)
      = (List.range (n_of_frequency_bins N)).map (fun k : ℕ =>
          ∑ n in Finset.range N,
            ((windowed_signal N w signal).getD n 0 : ℂ) *
              Complex.exp (((-(2 * Real.pi * (k : ℝ) * (n : ℝ) / (N : ℝ)) : ℝ) : ℂ)
                * Complex.I)) := by
    rw [← List.map_take, List.take_range, min_eq_left]
    unfold n_of_frequency_bins
    omega
  unfold StftAnalyzer.analyze StftAnalyzer.new
  dsimp only
  rw [if_pos hlen, hwmap, hbw, fft_windowed_eq N w signal hlen]
  rw [show ((List.range (n_of_frequency_bins N)).map
      (fun k => stft_entry N k (windowed_signal N w signal))).length
      = n_of_frequency_bins N by rw [List.length_map, List.length_range]]
  rw [htake, stft_write_map]
  rw [show (fun i : ℕ =>
      (⟨(∑ n in Finset.range N,
          ((windowed_signal N w signal).getD n 0 : ℂ) *
            Complex.exp (((-(2 * Real.pi * (i : ℝ) * (n : ℝ) / (N : ℝ)) : ℝ) : ℂ)
              * Complex.I))
          * ((1 / Real.sqrt (N : ℝ) : ℝ) : ℂ),
        (stft_entry N i (windowed_signal N w signal)).bin_idx⟩ : DiscreteHarmonic))
      = fun k : ℕ => stft_entry N k (windowed_signal N w signal) from
    funext fun k => rfl]

/-- C9: both analyzers are deterministic and cross-call stable: a second
`analyze` call with the same signal returns the identical result buffer and
leaves the analyzer state unchanged, because every scratch buffer is fully
overwritten from the signal and the construction-time constants on each call. -/
theorem analyze_deterministic_across_calls (sr N : ℕ) (bins : List ℕ)
    (w : ℕ → ℕ → ℝ) (signal : List ℝ) (hN : 1 ≤ N) (hlen : signal.length = N) :
    (∃ a out, (GoertzelAnalyzer.new N bins w).analyze signal = some (a, out) ∧
      a.analyze signal = some (a, out)) ∧
    (∃ a out, (StftAnalyzer.new sr N w).analyze signal = some (a, out) ∧
      a.analyze signal = some (a, out)) :=
  ⟨⟨_, _, goertzel_analyze_new_eq N bins w signal hlen,
    goertzel_second_call N bins w signal hlen⟩,
   ⟨_, _, stft_analyze_new_eq sr N w signal hN hlen,
    stft_second_call sr N w signal hN hlen⟩⟩

/-- C9 witness at `sample_rate = 1`, `window_length = 1`, bins `[0]`,
identity windowing, signal `[0]`. -/
theorem analyze_deterministic_across_calls_witness :
    1 ≤ 1 ∧ ([(0 : ℝ)]).length = 1 ∧
    ((∃ a out, (GoertzelAnalyzer.new 1 [0] (fun _ _ => 1)).analyze [0] = some (a, out) ∧
        a.analyze [0] = some (a, out)) ∧
     (∃ a out, (StftAnalyzer.new 1 1 (fun _ _ => 1)).analyze [0] = some (a, out) ∧
        a.analyze [0] = some (a, out))) :=
  ⟨le_refl 1, rfl,
   analyze_deterministic_across_calls 1 1 [0] (fun _ _ => 1) [0] (le_refl 1) rfl⟩

theorem goertzel_entry_eq_stft_entry (N k : ℕ) (hN : 1 ≤ N) (wsig : List ℝ)
    (hw : wsig.length = N) :
    goertzel_entry N k wsig = stft_entry N k wsig := by
  unfold goertzel_entry stft_entry
  congr 1
  rw [goertzel_bin_value_eq_dft N k hN wsig hw]
  rfl

/-- C1: for every signal of the configured window length and every bin
requested from both analyzers, the STFT and the Goertzel analyzers agree on
the bin index exactly (the harmonics for that bin carry the same index and in
fact equal phasors), and therefore on amplitude within `0.01` and on phase
within `TAU/100`. Both analyzers exist harmonics for that bin. -/
theorem stft_goertzel_agreement (sr N : ℕ) (w : ℕ → ℕ → ℝ) (bins : List ℕ)
    (signal : List ℝ) (k : ℕ) (hN : 1 ≤ N) (hlen : signal.length = N)
    (hkg : k ∈ bins) (hks : k < n_of_frequency_bins N) :
    (∀ h1 ∈ goertzel_output N bins w signal, h1.bin_idx = k →
      ∀ h2 ∈ stft_output sr N w signal, h2.bin_idx = k →
        h1.phasor = h2.phasor ∧
        |h1.amplitude - h2.amplitude| ≤ 0.01 ∧
        |h1.phase - h2.phase| ≤ TAU / 100) ∧
    (∃ h1 ∈ goertzel_output N bins w signal, h1.bin_idx = k) ∧
    (∃ h2 ∈ stft_output sr N w signal, h2.bin_idx = k) := by
  have hgout : goertzel_output N bins w signal
      = (bins.insertionSort (· ≤ ·)).map
          (fun j => goertzel_entry N j (windowed_signal N w signal)) := by
    unfold goertzel_output
    rw [goertzel_analyze_new_eq N bins w signal hlen]
    rfl
  have hsout : stft_output sr N w signal
      = (List.range (n_of_frequency_bins N)).map
          (fun j => stft_entry N j (windowed_signal N w signal)) := by
    unfold stft_output
    rw [stft_analyze_new_eq sr N w signal hN hlen]
    rfl
  have hkey := goertzel_entry_eq_stft_entry N k hN (windowed_signal N w signal)
    (windowed_signal_length N w signal hlen)
  have hTAUpos : (0 : ℝ) ≤ TAU / 100 := by
    rw [show TAU = 2 * Real.pi from rfl]
    positivity
  refine ⟨?_, ?_, ?_⟩
  · intro h1 h1m hb1 h2 h2m hb2
    rw [hgout] at h1m
    obtain ⟨j1, hj1mem, hj1⟩ := List.mem_map.mp h1m
    rw [hsout] at h2m
    obtain ⟨j2, hj2mem, hj2⟩ := List.mem_map.mp h2m
    have hj1k : j1 = k := by rw [← hb1, ← hj1]; rfl
    have hj2k : j2 = k := by rw [← hb2, ← hj2]; rfl
    have h12 : h1 = h2 := by
      rw [← hj1, ← hj2, hj1k, hj2k]
      exact hkey
    refine ⟨by rw [h12], ?_, ?_⟩
    · rw [h12, sub_self, abs_zero]
      norm_num
    · rw [h12, sub_self, abs_zero]
      exact hTAUpos
  · refine ⟨goertzel_entry N k (windowed_signal N w signal), ?_, rfl⟩
    rw [hgout]
    exact List.mem_map_of_mem _ ((List.perm_insertionSort (· ≤ ·) bins).mem_iff.mpr hkg)
  · refine ⟨stft_entry N k (windowed_signal N w signal), ?_, rfl⟩
    rw [hsout]
    exact List.mem_map_of_mem _ (List.mem_range.mpr hks)

/-- C1 witness at `sample_rate = 1`, `window_length = 1`, bins `[0]`, identity
windowing, signal `[0]`, bin `0`. -/
theorem stft_goertzel_agreement_witness :
    1 ≤ 1 ∧ ([(0 : ℝ)]).length = 1 ∧ 0 ∈ ([0] : List ℕ) ∧
    0 < n_of_frequency_bins 1 ∧
    ((∀ h1 ∈ goertzel_output 1 [0] (fun _ _ => 1) [0], h1.bin_idx = 0 →
        ∀ h2 ∈ stft_output 1 1 (fun _ _ => 1) [0], h2.bin_idx = 0 →
          h1.phasor = h2.phasor ∧
          |h1.amplitude - h2.amplitude| ≤ 0.01 ∧
          |h1.phase - h2.phase| ≤ TAU / 100) ∧
     (∃ h1 ∈ goertzel_output 1 [0] (fun _ _ => 1) [0], h1.bin_idx = 0) ∧
     (∃ h2 ∈ stft_output 1 1 (fun _ _ => 1) [0], h2.bin_idx = 0)) :=
  ⟨le_refl 1, rfl, by simp, by decide,
   stft_goertzel_agreement 1 1 (fun _ _ => 1) [0] [0] 0 (le_refl 1) rfl
     (by simp) (by decide)⟩

end MiscLibs
